import Mathlib

set_option autoImplicit false

namespace FastEstimator

/-! ## Data model

Numeric tensors are modelled over exact rationals (`ℚ`): every floating-point
value the code manipulates is represented by the rational it denotes, so
"up to floating-point tolerance" statements become exact equalities.
`np.mean` of an empty array yields NaN; NaN is modelled as `Option.none`. -/

/-- Numpy element dtypes appearing at the boundaries of the modelled code. -/
inductive NpDtype
  | int8 | int16 | int32 | int64 | uint8 | uint16 | float32 | float64
deriving DecidableEq, Repr

/-- Models the Python check `"int" in str(dtype)` from `Onehot._apply_onehot`
(onehot.py line 59): the string form of every signed or unsigned integer dtype
contains the substring "int"; the float dtypes do not. -/
def NpDtype.isIntLike : NpDtype → Bool
  | .int8 | .int16 | .int32 | .int64 | .uint8 | .uint16 => true
  | .float32 | .float64 => false

/-- An integer numpy array (the result of `np.array(data)` on an int or an
integer ndarray): a dtype together with its flattened element list. A Python
scalar int becomes a singleton list with dtype int64. -/
structure NpIntArray where
  dtype : NpDtype
  values : List Int
deriving DecidableEq, Repr

/-- A floating-point numpy vector with its element dtype. -/
structure NpFloatArray where
  dtype : NpDtype
  values : List ℚ
deriving DecidableEq, Repr

/-- The failures `Onehot._apply_onehot` can raise, following the spec's error
taxonomy: `typeConstraintError` for the dtype assert (line 59), `shapeError`
for the size-1 assert (line 60), `rangeError` for the assert
"label value should be smaller than num_classes" (line 62), and `indexError`
for numpy's own IndexError on an out-of-bounds indexed write (line 64). -/
inductive LabelError
  | typeConstraintError | shapeError | rangeError | indexError
deriving DecidableEq, Repr

/-- Models a numpy indexed write `xs[i] = v` with a (possibly negative) integer
index: indices in `[0, len)` write directly, indices in `[-len, 0)` wrap around
to `len + i`, anything else raises IndexError (`none`). -/
def npSetIdx (xs : List ℚ) (i : Int) (v : ℚ) : Option (List ℚ) :=
  if 0 ≤ i ∧ i < (xs.length : Int) then some (xs.set i.toNat v)
  else if -(xs.length : Int) ≤ i ∧ i < 0 then some (xs.set (i + (xs.length : Int)).toNat v)
  else none

/-- Embedding of `Onehot._apply_onehot` (onehot.py lines 57-65):
`class_index = np.array(data)`; assert the dtype is integral; assert the array
has exactly one item; assert `class_index < num_classes`; build
`np.full((num_classes), label_smoothing / num_classes, dtype="float32")`;
write `1.0 - label_smoothing + label_smoothing / num_classes` at
`output[class_index]`; return the vector. -/
def apply_onehot (num_classes : Nat) (label_smoothing : ℚ) (data : NpIntArray) :
    Except LabelError NpFloatArray :=
  if data.dtype.isIntLike then
    match data.values with
    | [class_index] =>
      if class_index < (num_classes : Int) then
        match npSetIdx (List.replicate num_classes (label_smoothing / (num_classes : ℚ)))
            class_index (1 - label_smoothing + label_smoothing / (num_classes : ℚ)) with
        | some vs => Except.ok ⟨NpDtype.float32, vs⟩
        | none => Except.error LabelError.indexError
      else Except.error LabelError.rangeError
    | _ => Except.error LabelError.shapeError
  else Except.error LabelError.typeConstraintError

/-! ### List helper lemmas -/

lemma list_getD_replicate {α : Type} (d v : α) :
    ∀ (n j : Nat), j < n → (List.replicate n v).getD j d = v := by
  intro n
  induction n with
  | zero => intro j h; omega
  | succ m ih =>
    intro j h
    cases j with
    | zero => rfl
    | succ k => exact ih k (by omega)

lemma list_getD_set_self {α : Type} (d v : α) :
    ∀ (l : List α) (i : Nat), i < l.length → (l.set i v).getD i d = v := by
  intro l
  induction l with
  | nil => intro i h; simp at h
  | cons a t ih =>
    intro i h
    cases i with
    | zero => rfl
    | succ k => exact ih k (by simpa using h)

lemma list_getD_set_ne {α : Type} (d v : α) :
    ∀ (l : List α) (i j : Nat), i ≠ j → (l.set i v).getD j d = l.getD j d := by
  intro l
  induction l with
  | nil => intro i j _; cases i <;> rfl
  | cons a t ih =>
    intro i j hij
    cases i with
    | zero =>
      cases j with
      | zero => exact absurd rfl hij
      | succ k => rfl
    | succ m =>
      cases j with
      | zero => rfl
      | succ k => exact ih m k (by omega)

lemma list_sum_set (v : ℚ) :
    ∀ (l : List ℚ) (i : Nat), i < l.length → (l.set i v).sum = l.sum - l.getD i 0 + v := by
  intro l
  induction l with
  | nil => intro i h; simp at h
  | cons a t ih =>
    intro i h
    cases i with
    | zero => simp [List.sum_cons]; ring
    | succ k =>
      have hk : k < t.length := by simpa using h
      simp only [List.set, List.sum_cons, List.getD_cons_succ, ih k hk]
      ring

lemma list_sum_replicate_q (v : ℚ) :
    ∀ (n : Nat), (List.replicate n v).sum = (n : ℚ) * v := by
  intro n
  induction n with
  | zero => simp
  | succ m ih =>
    simp only [List.replicate_succ, List.sum_cons, ih]
    push_cast
    ring

lemma npSetIdx_length (xs : List ℚ) (i : Int) (v : ℚ) (ys : List ℚ)
    (h : npSetIdx xs i v = some ys) : ys.length = xs.length := by
  unfold npSetIdx at h
  split_ifs at h <;> cases h <;> simp [List.length_set]

/-- Closed form of `apply_onehot` on a scalar int64 label, by sign cases. -/
lemma apply_onehot_int64_eq (n : Nat) (s : ℚ) (label : Int) :
    apply_onehot n s ⟨NpDtype.int64, [label]⟩ =
      if (n : Int) ≤ label then Except.error LabelError.rangeError
      else if 0 ≤ label then
        Except.ok ⟨NpDtype.float32,
          (List.replicate n (s / (n : ℚ))).set label.toNat (1 - s + s / (n : ℚ))⟩
      else if -(n : Int) ≤ label then
        Except.ok ⟨NpDtype.float32,
          (List.replicate n (s / (n : ℚ))).set (label + (n : Int)).toNat (1 - s + s / (n : ℚ))⟩
      else Except.error LabelError.indexError := by
  simp only [apply_onehot, npSetIdx, NpDtype.isIntLike, List.length_replicate, if_true]
  split_ifs <;> first | rfl | omega

end FastEstimator

namespace FastEstimator

/-- C5: `Onehot._apply_onehot` on a label in `[0, num_classes)` returns a
vector of length `num_classes` whose entry at index `label` is
`1 - label_smoothing + label_smoothing / num_classes` and whose every other
entry is `label_smoothing / num_classes`; with `label_smoothing = 0` this is
1.0 at `label` and 0.0 elsewhere. -/
theorem onehot_encode_entries (num_classes : Nat) (s : ℚ) (label : Int)
    (h0 : 0 ≤ label) (h1 : label < (num_classes : Int)) :
    ∃ out : NpFloatArray,
      apply_onehot num_classes s ⟨NpDtype.int64, [label]⟩ = Except.ok out ∧
      out.values.length = num_classes ∧
      (∀ j : Nat, j < num_classes →
        out.values.getD j 0 =
          if j = label.toNat then 1 - s + s / (num_classes : ℚ)
          else s / (num_classes : ℚ)) := by
  rw [apply_onehot_int64_eq, if_neg (by omega), if_pos h0]
  refine ⟨_, rfl, ?_, ?_⟩
  · simp
  · intro j hj
    by_cases hje : j = label.toNat
    · subst hje
      rw [list_getD_set_self, if_pos rfl]
      simpa using hj
    · rw [list_getD_set_ne _ _ _ _ _ (fun h => hje h.symm), if_neg hje,
        list_getD_replicate _ _ _ _ hj]

/-- C5 witness: concrete instance with `num_classes = 3`, `label = 1`,
`label_smoothing = 1/10`. -/
theorem onehot_encode_entries_witness :
    0 ≤ (1 : Int) ∧ (1 : Int) < ((3 : Nat) : Int) ∧
    ∃ out : NpFloatArray,
      apply_onehot 3 (1/10) ⟨NpDtype.int64, [1]⟩ = Except.ok out ∧
      out.values.length = 3 ∧
      (∀ j : Nat, j < 3 →
        out.values.getD j 0 =
          if j = (1 : Int).toNat then 1 - 1/10 + (1/10) / ((3 : Nat) : ℚ)
          else (1/10) / ((3 : Nat) : ℚ)) :=
  ⟨by decide, by decide, onehot_encode_entries 3 (1/10) 1 (by decide) (by decide)⟩

/-- C4: for `num_classes > 0`, a label in `[0, num_classes)` and any smoothing
`0 ≤ s ≤ 1`, the vector returned by `Onehot._apply_onehot` sums to exactly 1
(over exact rationals). -/
theorem onehot_smoothing_sum_one (num_classes : Nat) (s : ℚ) (label : Int)
    (hn : 0 < num_classes) (h0 : 0 ≤ label) (h1 : label < (num_classes : Int))
    (hs0 : 0 ≤ s) (hs1 : s ≤ 1) :
    ∃ out : NpFloatArray,
      apply_onehot num_classes s ⟨NpDtype.int64, [label]⟩ = Except.ok out ∧
      out.values.sum = 1 := by
  rw [apply_onehot_int64_eq, if_neg (by omega), if_pos h0]
  refine ⟨_, rfl, ?_⟩
  have hlt : label.toNat < num_classes := by omega
  rw [list_sum_set _ _ _ (by simpa using hlt), list_sum_replicate_q,
    list_getD_replicate _ _ _ _ hlt]
  have hne : (num_classes : ℚ) ≠ 0 := Nat.cast_ne_zero.mpr hn.ne'
  field_simp
  ring

/-- C4 witness: concrete instance with `num_classes = 4`, `label = 2`,
`s = 1/2`. -/
theorem onehot_smoothing_sum_one_witness :
    0 < 4 ∧ 0 ≤ (2 : Int) ∧ (2 : Int) < ((4 : Nat) : Int) ∧
    0 ≤ (1/2 : ℚ) ∧ (1/2 : ℚ) ≤ 1 ∧
    ∃ out : NpFloatArray,
      apply_onehot 4 (1/2) ⟨NpDtype.int64, [2]⟩ = Except.ok out ∧
      out.values.sum = 1 :=
  ⟨by decide, by decide, by decide, by norm_num, by norm_num,
    onehot_smoothing_sum_one 4 (1/2) 2 (by decide) (by decide) (by decide)
      (by norm_num) (by norm_num)⟩

/-- C10: every vector `Onehot._apply_onehot` successfully returns has element
dtype float32 and length exactly `num_classes`, for every accepted input array
(any integer dtype, scalar or unit array). -/
theorem onehot_output_dtype_length (num_classes : Nat) (s : ℚ) (data : NpIntArray)
    (out : NpFloatArray) (h : apply_onehot num_classes s data = Except.ok out) :
    out.dtype = NpDtype.float32 ∧ out.values.length = num_classes := by
  unfold apply_onehot at h
  split at h
  · split at h
    · split at h
      · split at h
        · rename_i vs heq
          cases h
          refine ⟨rfl, ?_⟩
          simpa using npSetIdx_length _ _ _ _ heq
        · cases h
      · cases h
    · cases h
  · cases h

/-- C10 witness: a concrete accepted input (uint8 array, `num_classes = 2`). -/
theorem onehot_output_dtype_length_witness :
    NpFloatArray.dtype ⟨NpDtype.float32, [(1 : ℚ), 0]⟩ = NpDtype.float32 ∧
    (NpFloatArray.values ⟨NpDtype.float32, [(1 : ℚ), 0]⟩).length = 2 :=
  onehot_output_dtype_length 2 0 ⟨NpDtype.uint8, [0]⟩ ⟨NpDtype.float32, [1, 0]⟩
    (by simp [apply_onehot, npSetIdx, NpDtype.isIntLike, List.replicate_succ])

/-- The mutable state of a `Dice` trace instance (dice.py lines 48-63): the
binarization `threshold`, the `smooth` epsilon constant, the
`channel_average` flag, the configured output name (`self.outputs[0]`) and
the accumulator list `self.dice`. -/
structure DiceState where
  threshold : ℚ
  smooth : ℚ
  channel_average : Bool
  outputs : String
  dice : List ℚ
deriving DecidableEq, Repr

/-- Embedding of `Dice.__init__` (dice.py lines 48-63): stores the threshold,
sets `self.smooth = 1e-8` and starts with an empty accumulator. -/
def dice_init (output_name : String) (threshold : ℚ) (channel_average : Bool) :
    DiceState :=
  { threshold := threshold
    smooth := 1 / 100000000
    channel_average := channel_average
    outputs := output_name
    dice := [] }

/-- Embedding of `Dice.on_epoch_begin` (dice.py lines 73-74):
`self.dice = []`. -/
def on_epoch_begin (s : DiceState) : DiceState :=
  { s with dice := [] }

/-- Models `np.where(y_pred > self.threshold, 1.0, 0.0).astype(y_pred.dtype)`
(dice.py lines 80-81): elementwise strict comparison against the threshold,
keeping the input's dtype. -/
def binarize (threshold : ℚ) (a : NpFloatArray) : NpFloatArray :=
  ⟨a.dtype, a.values.map (fun p => if threshold < p then 1 else 0)⟩

/-- Modelled from the spec: the backend `dice_score` function
(`fastestimator.backend._dice_score`, imported at dice.py line 19 but absent
from these sources), in the `channel_average = False` configuration: per
sample, `(2 * sum(pred ∧ true) + epsilon) / (sum(pred) + sum(true) + epsilon)`
with the elementwise mask conjunction taken as the product. Each batch is a
list of flattened per-sample masks. -/
def dice_score (y_pred y_true : List NpFloatArray) (epsilon : ℚ) : List ℚ :=
  List.zipWith
    (fun p t =>
      (2 * (List.zipWith (· * ·) p.values t.values).sum + epsilon) /
        (p.values.sum + t.values.sum + epsilon))
    y_pred y_true

/-- Embedding of `Dice.on_batch_end` (dice.py lines 76-87): binarize the
prediction batch by the strict threshold comparison, compute the per-sample
dice scores, write them to the per-instance log (returned as the second
component) and extend `self.dice` with them. -/
def on_batch_end (s : DiceState) (y_true y_pred : List NpFloatArray) :
    DiceState × List ℚ :=
  let y_pred_bin := y_pred.map (binarize s.threshold)
  let d := dice_score y_pred_bin y_true s.smooth
  ({ s with dice := s.dice ++ d }, d)

/-- Models `np.mean`: NaN (`none`) on an empty array, otherwise the exact
arithmetic mean. -/
def npMean (xs : List ℚ) : Option ℚ :=
  if xs.isEmpty then none else some (xs.sum / (xs.length : ℚ))

/-- Embedding of `Dice.on_epoch_end` (dice.py lines 89-90):
`data.write_with_log(self.outputs[0], np.mean(self.dice))`, modelled as
appending the written key-value pair to the data log. -/
def on_epoch_end (s : DiceState) (data : List (String × Option ℚ)) :
    List (String × Option ℚ) :=
  data ++ [(s.outputs, npMean s.dice)]

lemma list_getD_map {α β : Type} (f : α → β) (d : β) (d₀ : α) :
    ∀ (l : List α) (j : Nat), j < l.length → (l.map f).getD j d = f (l.getD j d₀) := by
  intro l
  induction l with
  | nil => intro j h; simp at h
  | cons a t ih =>
    intro j h
    cases j with
    | zero => rfl
    | succ k => exact ih k (by simpa using h)

lemma list_getD_zipWith {α β γ : Type} (f : α → β → γ) (da : α) (db : β) (dc : γ) :
    ∀ (a : List α) (b : List β) (i : Nat), i < a.length → i < b.length →
      (List.zipWith f a b).getD i dc = f (a.getD i da) (b.getD i db) := by
  intro a
  induction a with
  | nil => intro b i h; simp at h
  | cons x xs ih =>
    intro b i ha hb
    cases b with
    | nil => simp at hb
    | cons y ys =>
      cases i with
      | zero => rfl
      | succ k => exact ih ys k (by simpa using ha) (by simpa using hb)

lemma list_binary_map_binarize (th : ℚ) (h0 : 0 ≤ th) (h1 : th < 1) :
    ∀ (v : List ℚ), (∀ x ∈ v, x = 0 ∨ x = 1) →
      v.map (fun p => if th < p then (1 : ℚ) else 0) = v := by
  intro v
  induction v with
  | nil => intro _; rfl
  | cons x xs ih =>
    intro hb
    have hx := hb x (List.mem_cons_self x xs)
    have hxs := ih (fun y hy => hb y (List.mem_cons_of_mem x hy))
    rcases hx with hx | hx <;> subst hx
    · simp [List.map_cons, hxs, not_lt.mpr h0]
    · simp [List.map_cons, hxs, h1]

lemma list_binary_sq_sum :
    ∀ (v : List ℚ), (∀ x ∈ v, x = 0 ∨ x = 1) →
      (List.zipWith (· * ·) v v).sum = v.sum := by
  intro v
  induction v with
  | nil => intro _; rfl
  | cons x xs ih =>
    intro hb
    have hx := hb x (List.mem_cons_self x xs)
    have hxs := ih (fun y hy => hb y (List.mem_cons_of_mem x hy))
    rcases hx with hx | hx <;> subst hx <;>
      rw [List.zipWith_cons_cons, List.sum_cons, List.sum_cons, hxs] <;> norm_num

/-- C1 counterexample: the claim says every negative label fails, but a
negative label wraps around via numpy indexing: `label = -1` with
`num_classes = 3` is accepted and produces the vector hot at index 2. -/
theorem onehot_negative_label_accepted :
    apply_onehot 3 0 ⟨NpDtype.int64, [-1]⟩ =
      Except.ok ⟨NpDtype.float32, [0, 0, 1]⟩ := by
  simp [apply_onehot, npSetIdx, NpDtype.isIntLike, List.replicate_succ]

/-- C1 amended: `Onehot._apply_onehot` fails exactly when the label is
`≥ num_classes` (the range-check assert) or `< -num_classes` (numpy
IndexError); the range-check assert fires exactly when `label ≥ num_classes`,
so in particular `label = num_classes` fails it for every smoothing, while
labels in `[-num_classes, 0)` are accepted through numpy index wraparound. -/
theorem onehot_fail_iff (num_classes : Nat) (s : ℚ) (label : Int) :
    ((∃ out, apply_onehot num_classes s ⟨NpDtype.int64, [label]⟩ = Except.ok out) ↔
      -(num_classes : Int) ≤ label ∧ label < (num_classes : Int)) ∧
    (apply_onehot num_classes s ⟨NpDtype.int64, [label]⟩ =
        Except.error LabelError.rangeError ↔
      (num_classes : Int) ≤ label) := by
  rw [apply_onehot_int64_eq]
  split_ifs with ha hb hc <;>
    constructor <;> simp <;> omega

/-- A `tf.lookup.StaticHashTable`: key-value pairs plus the table's default
value, returned by `lookup` for absent keys. -/
structure TfHashTable where
  pairs : List (Int × ℚ)
  defaultValue : ℚ
deriving DecidableEq, Repr

/-- The `class_weights.lookup(keys)` call of the tf branch, per key. -/
def TfHashTable.lookup (t : TfHashTable) (k : Int) : ℚ :=
  match t.pairs.find? (fun p => p.1 == k) with
  | some p => p.2
  | none => t.defaultValue

/-- Lookup in a plain key-value list with an explicit default for absent
keys (the spec's `weight_for(class_index) -> float, default 1.0`). -/
def dictFindD (d : List (Int × ℚ)) (k : Int) (dflt : ℚ) : ℚ :=
  match d.find? (fun p => p.1 == k) with
  | some p => p.2
  | none => dflt

/-- The torch-branch weight loop (loss file lines 91-93):
`sample_weights = torch.ones_like(y_true)` followed by
`sample_weights[y_true == key] = class_weights[key]` for each dict key. -/
def torch_weight_loop (y_true : List Int) (sw : List ℚ) : List (Int × ℚ) → List ℚ
  | [] => sw
  | kv :: rest =>
      torch_weight_loop y_true
        (List.zipWith (fun t w => if t = kv.1 then kv.2 else w) y_true sw) rest

/-- The per-sample weights the torch branch builds from a class-weight dict. -/
def torch_sample_weights (y_true : List Int) (d : List (Int × ℚ)) : List ℚ :=
  torch_weight_loop y_true (y_true.map (fun _ => 1)) d

/-- Modelled from the spec: `fastestimator.backend._reduce_mean.reduce_mean`
(imported at line 20 of the loss file but absent from these sources), the
generic mean reduction: the arithmetic mean of all elements. -/
def reduce_mean (xs : List ℚ) : ℚ := xs.sum / (xs.length : ℚ)

/-- Projection of a scalar-or-vector loss result onto its vector part. -/
def getVec : ℚ ⊕ List ℚ → List ℚ
  | Sum.inl _ => []
  | Sum.inr v => v

/-- Embedding of the TensorFlow branch of `sparse_categorical_crossentropy`
(loss file lines 77-82 and 95-97). The external primitive
`tf.losses.sparse_categorical_crossentropy` is the parameter `tfCE`, mapping
the prediction batch, label batch and `from_logits` flag to the per-sample
loss vector; the repository code then multiplies elementwise by the
looked-up weights of the true classes and finally reduces. -/
def scc_tf (tfCE : List (List ℚ) → List Int → Bool → List ℚ)
    (y_pred : List (List ℚ)) (y_true : List Int)
    (from_logits average_loss : Bool) (class_weights : Option TfHashTable) :
    ℚ ⊕ List ℚ :=
  let ce := tfCE y_pred y_true from_logits
  let ce := match class_weights with
    | some t => List.zipWith (fun c l => c * t.lookup l) ce y_true
    | none => ce
  if average_loss then Sum.inl (reduce_mean ce) else Sum.inr ce

/-- Embedding of the PyTorch branch of `sparse_categorical_crossentropy`
(loss file lines 84-97). The external primitives `torchCE`
(`torch.nn.CrossEntropyLoss` on logits) and `torchNLL` (`torch.nn.NLLLoss`
on `torch.log(y_pred)`) are parameters producing the per-sample loss vector
on the flattened labels; the repository code builds the per-sample weights
with the dict loop, multiplies elementwise and finally reduces. -/
def scc_torch (torchCE torchNLL : List (List ℚ) → List Int → List ℚ)
    (y_pred : List (List ℚ)) (y_true : List Int)
    (from_logits average_loss : Bool)
    (class_weights : Option (List (Int × ℚ))) : ℚ ⊕ List ℚ :=
  let ce := if from_logits then torchCE y_pred y_true else torchNLL y_pred y_true
  let ce := match class_weights with
    | some d => List.zipWith (· * ·) ce (torch_sample_weights y_true d)
    | none => ce
  if average_loss then Sum.inl (reduce_mean ce) else Sum.inr ce

lemma torch_weight_loop_length (y_true : List Int) :
    ∀ (d : List (Int × ℚ)) (sw : List ℚ), sw.length = y_true.length →
      (torch_weight_loop y_true sw d).length = y_true.length := by
  intro d
  induction d with
  | nil => intro sw h; simpa [torch_weight_loop] using h
  | cons kv rest ih =>
    intro sw h
    exact ih _ (by simp [List.length_zipWith, h])

lemma torch_sample_weights_length (y_true : List Int) (d : List (Int × ℚ)) :
    (torch_sample_weights y_true d).length = y_true.length :=
  torch_weight_loop_length y_true d _ (by simp)

lemma torch_weight_loop_getD (y_true : List Int) (i : Nat) (hi : i < y_true.length) :
    ∀ (d : List (Int × ℚ)) (sw : List ℚ), sw.length = y_true.length →
      (d.map Prod.fst).Nodup →
      (torch_weight_loop y_true sw d).getD i 0 =
        match d.find? (fun p => p.1 == y_true.getD i 0) with
        | some p => p.2
        | none => sw.getD i 0 := by
  intro d
  induction d with
  | nil => intro sw _ _; simp [torch_weight_loop]
  | cons kv rest ih =>
    intro sw hl hnd
    have hnd' : (rest.map Prod.fst).Nodup := (List.nodup_cons.mp hnd).2
    have hmem : kv.1 ∉ rest.map Prod.fst := (List.nodup_cons.mp hnd).1
    have hswl : (List.zipWith (fun t w => if t = kv.1 then kv.2 else w) y_true sw).length
        = y_true.length := by
      simp [List.length_zipWith, hl]
    rw [torch_weight_loop, ih _ hswl hnd']
    have hsw' : (List.zipWith (fun t w => if t = kv.1 then kv.2 else w) y_true sw).getD i 0
        = if y_true.getD i 0 = kv.1 then kv.2 else sw.getD i 0 :=
      list_getD_zipWith _ 0 0 0 y_true sw i hi (by omega)
    by_cases heq : y_true.getD i 0 = kv.1
    · have hrest : rest.find? (fun p => p.1 == y_true.getD i 0) = none := by
        rw [List.find?_eq_none]
        intro p hp
        have : p.1 ∈ rest.map Prod.fst := List.mem_map_of_mem Prod.fst hp
        simp only [beq_iff_eq]
        intro hpk
        exact hmem (by rwa [hpk, heq] at this)
      rw [List.find?_cons_of_pos _ (by simp only [beq_iff_eq]; exact heq.symm),
        hrest, hsw', if_pos heq]
    · rw [List.find?_cons_of_neg _
          (by simp only [beq_iff_eq]; exact fun h => heq h.symm),
        hsw', if_neg heq]

lemma torch_sample_weights_getD (y_true : List Int) (d : List (Int × ℚ)) (i : Nat)
    (hi : i < y_true.length) (hnd : (d.map Prod.fst).Nodup) :
    (torch_sample_weights y_true d).getD i 0 = dictFindD d (y_true.getD i 0) 1 := by
  rw [torch_sample_weights, torch_weight_loop_getD y_true i hi d _ (by simp) hnd,
    dictFindD]
  cases d.find? (fun p => p.1 == y_true.getD i 0) with
  | none => exact list_getD_map _ 0 0 y_true i hi
  | some p => rfl

/-- C2: with class weights supplied and per-sample output, each sample's loss
equals the unweighted per-sample loss multiplied by the weight mapped to its
true class, with weight 1 for classes absent from the map, on both backend
paths. On the tf path the table realizes the spec's ClassWeightMap contract
through its default value 1; on the torch path the dict of a Python program
has pairwise distinct keys. -/
theorem scc_class_weights_scale
    (tfCE : List (List ℚ) → List Int → Bool → List ℚ)
    (torchCE torchNLL : List (List ℚ) → List Int → List ℚ)
    (y_pred : List (List ℚ)) (y_true : List Int) (from_logits : Bool)
    (t : TfHashTable) (d : List (Int × ℚ)) (i : Nat)
    (hdef : t.defaultValue = 1)
    (hnd : (d.map Prod.fst).Nodup)
    (hit : i < y_true.length) :
    (i < (getVec (scc_tf tfCE y_pred y_true from_logits false none)).length →
      (getVec (scc_tf tfCE y_pred y_true from_logits false (some t))).getD i 0 =
        (getVec (scc_tf tfCE y_pred y_true from_logits false none)).getD i 0 *
          dictFindD t.pairs (y_true.getD i 0) 1) ∧
    (i < (getVec (scc_torch torchCE torchNLL y_pred y_true from_logits false
        none)).length →
      (getVec (scc_torch torchCE torchNLL y_pred y_true from_logits false
          (some d))).getD i 0 =
        (getVec (scc_torch torchCE torchNLL y_pred y_true from_logits false
          none)).getD i 0 * dictFindD d (y_true.getD i 0) 1) := by
  constructor
  · intro hlen
    have hlen' : i < (tfCE y_pred y_true from_logits).length := hlen
    show (List.zipWith (fun c l => c * t.lookup l)
        (tfCE y_pred y_true from_logits) y_true).getD i 0 =
      (tfCE y_pred y_true from_logits).getD i 0 *
        dictFindD t.pairs (y_true.getD i 0) 1
    rw [list_getD_zipWith (fun c l => c * t.lookup l) 0 0 0 _ _ i hlen' hit]
    simp only [TfHashTable.lookup, dictFindD, hdef]
  · intro hlen
    have hlen' : i < (if from_logits then torchCE y_pred y_true
        else torchNLL y_pred y_true).length := hlen
    show (List.zipWith (· * ·)
        (if from_logits then torchCE y_pred y_true else torchNLL y_pred y_true)
        (torch_sample_weights y_true d)).getD i 0 =
      (if from_logits then torchCE y_pred y_true
        else torchNLL y_pred y_true).getD i 0 *
        dictFindD d (y_true.getD i 0) 1
    rw [list_getD_zipWith (· * ·) 0 0 0 _ _ i hlen'
        (by rw [torch_sample_weights_length]; exact hit),
      torch_sample_weights_getD y_true d i hit hnd]

/-- C2 witness: concrete batch with true classes 0 (mapped to weight 3) and 7
(absent from the map, weight 1) against per-sample losses [2, 5]. -/
theorem scc_class_weights_scale_witness :
    ((getVec (scc_tf (fun _ _ _ => [2, 5]) [] [0, 7] false false
        (some ⟨[(0, 3)], 1⟩))).getD 0 0 =
      (getVec (scc_tf (fun _ _ _ => [2, 5]) [] [0, 7] false false none)).getD 0 0 *
        dictFindD [(0, 3)] (([0, 7] : List Int).getD 0 0) 1) ∧
    ((getVec (scc_torch (fun _ _ => [2, 5]) (fun _ _ => [2, 5]) [] [0, 7] false false
        (some [(0, 3)]))).getD 0 0 =
      (getVec (scc_torch (fun _ _ => [2, 5]) (fun _ _ => [2, 5]) [] [0, 7] false false
        none)).getD 0 0 *
        dictFindD [(0, 3)] (([0, 7] : List Int).getD 0 0) 1) := by
  have h := scc_class_weights_scale (fun _ _ _ => [2, 5]) (fun _ _ => [2, 5])
    (fun _ _ => [2, 5]) [] [0, 7] false ⟨[(0, 3)], 1⟩ [(0, 3)] 0 rfl
    (by simp) (by simp)
  exact ⟨h.1 (by simp [getVec, scc_tf]), h.2 (by simp [getVec, scc_torch])⟩

/-- C6: on both backend paths, the `average_loss = true` result is the scalar
mean of the per-sample vector that `average_loss = false` returns (the
per-sample values being identical in the two cases), and whenever the
framework primitive returns one loss per sample, the `average_loss = false`
result has batch length. -/
theorem scc_average_loss_reduction
    (tfCE : List (List ℚ) → List Int → Bool → List ℚ)
    (torchCE torchNLL : List (List ℚ) → List Int → List ℚ)
    (y_pred : List (List ℚ)) (y_true : List Int) (from_logits : Bool)
    (cwt : Option TfHashTable) (cwd : Option (List (Int × ℚ))) :
    scc_tf tfCE y_pred y_true from_logits true cwt =
      Sum.inl (reduce_mean
        (getVec (scc_tf tfCE y_pred y_true from_logits false cwt))) ∧
    scc_torch torchCE torchNLL y_pred y_true from_logits true cwd =
      Sum.inl (reduce_mean
        (getVec (scc_torch torchCE torchNLL y_pred y_true from_logits false cwd))) ∧
    ((tfCE y_pred y_true from_logits).length = y_true.length →
      (getVec (scc_tf tfCE y_pred y_true from_logits false cwt)).length =
        y_true.length) ∧
    ((if from_logits then torchCE y_pred y_true
        else torchNLL y_pred y_true).length = y_true.length →
      (getVec (scc_torch torchCE torchNLL y_pred y_true from_logits false
        cwd)).length = y_true.length) := by
  refine ⟨?_, ?_, ?_, ?_⟩
  · cases cwt <;> rfl
  · cases cwd <;> rfl
  · intro hlen
    cases cwt with
    | none => exact hlen
    | some t =>
      show (List.zipWith (fun c l => c * t.lookup l)
        (tfCE y_pred y_true from_logits) y_true).length = _
      rw [List.length_zipWith, hlen, min_self]
  · intro hlen
    cases cwd with
    | none => exact hlen
    | some d =>
      show (List.zipWith (· * ·)
        (if from_logits then torchCE y_pred y_true else torchNLL y_pred y_true)
        (torch_sample_weights y_true d)).length = _
      rw [List.length_zipWith, hlen, torch_sample_weights_length, min_self]

/-- C6 witness: a concrete two-sample batch with class weights on both
paths. -/
theorem scc_average_loss_reduction_witness :
    scc_tf (fun _ _ _ => [3, 5]) [] [0, 7] false true (some ⟨[(0, 2)], 1⟩) =
      Sum.inl (reduce_mean (getVec (scc_tf (fun _ _ _ => [3, 5]) [] [0, 7] false
        false (some ⟨[(0, 2)], 1⟩)))) ∧
    (getVec (scc_torch (fun _ _ => [3, 5]) (fun _ _ => [3, 5]) [] [0, 7] false
        false (some [(0, 2)]))).length = ([0, 7] : List Int).length := by
  have h := scc_average_loss_reduction (fun _ _ _ => [3, 5]) (fun _ _ => [3, 5])
    (fun _ _ => [3, 5]) [] [0, 7] false (some ⟨[(0, 2)], 1⟩) (some [(0, 2)])
  exact ⟨h.1, h.2.2.2 (by simp)⟩

/-- C3: `Dice.on_epoch_end` writes, under the configured output name, exactly
the arithmetic mean of the accumulated scores: for an accumulator holding
`n ≥ 1` scores `s1..sn`, the logged value is `(s1 + ... + sn) / n`. -/
theorem dice_epoch_end_mean (s : DiceState) (data : List (String × Option ℚ))
    (h : s.dice ≠ []) :
    on_epoch_end s data =
      data ++ [(s.outputs, some (s.dice.sum / (s.dice.length : ℚ)))] := by
  simp [on_epoch_end, npMean, h]

/-- C3 witness: an accumulator holding the single score 3/4 logs 3/4. -/
theorem dice_epoch_end_mean_witness :
    ([(3/4 : ℚ)] ≠ []) ∧
    on_epoch_end ⟨1/2, 1/100000000, false, "Dice", [3/4]⟩ [] =
      [] ++ [("Dice", some (([(3/4 : ℚ)]).sum / (([(3/4 : ℚ)]).length : ℚ)))] :=
  ⟨by simp, dice_epoch_end_mean ⟨1/2, 1/100000000, false, "Dice", [3/4]⟩ []
    (by simp)⟩

/-- C8: `Dice.on_epoch_begin` empties the accumulator regardless of prior
state, so after any positive number of consecutive calls the accumulator is
the empty sequence. -/
theorem dice_epoch_begin_idempotent (s : DiceState) (k : Nat) (hk : 0 < k) :
    (on_epoch_begin^[k] s).dice = [] := by
  cases k with
  | zero => omega
  | succ m =>
    rw [Function.iterate_succ_apply']
    rfl

/-- C8 witness: two consecutive calls on a state with a non-empty accumulator
leave it empty. -/
theorem dice_epoch_begin_idempotent_witness :
    0 < 2 ∧
    (on_epoch_begin^[2] ⟨1/2, 1/100000000, false, "Dice", [3/4, 1/2]⟩).dice = [] :=
  ⟨by decide,
    dice_epoch_begin_idempotent ⟨1/2, 1/100000000, false, "Dice", [3/4, 1/2]⟩ 2
      (by decide)⟩

/-- C9: running `on_epoch_end` right after `on_epoch_begin`, with no batch in
between, does not fail: it writes the mean of the empty accumulator — the
non-finite NaN value, modelled as `none` — under the output name, rather than
skipping the write. -/
theorem dice_epoch_end_empty_nan (s : DiceState) (data : List (String × Option ℚ)) :
    on_epoch_end (on_epoch_begin s) data = data ++ [(s.outputs, none)] ∧
    npMean [] = none :=
  ⟨rfl, rfl⟩

/-- C7: in `Dice.on_batch_end` the prediction is binarized elementwise by the
strict comparison with the threshold (a value exactly equal to the threshold
becomes 0; the dtype is preserved), each per-sample score equals
`(2 * sum(pred_bin * true) + smooth) / (sum(pred_bin) + sum(true) + smooth)`,
the epsilon fixed by `Dice.__init__` is 1e-8, and identical binary true/pred
masks yield the score exactly 1. -/
theorem dice_batch_end_formula :
    (∀ (th : ℚ) (a : NpFloatArray),
      (binarize th a).dtype = a.dtype ∧
      ∀ j : Nat, j < a.values.length →
        (binarize th a).values.getD j 0 =
          if th < a.values.getD j 0 then 1 else 0) ∧
    (∀ (name : String) (th : ℚ) (ca : Bool),
      (dice_init name th ca).smooth = 1 / 100000000) ∧
    (∀ (s : DiceState) (y_true y_pred : List NpFloatArray) (i : Nat),
      i < y_true.length → i < y_pred.length →
      (on_batch_end s y_true y_pred).2.getD i 0 =
        (2 * (List.zipWith (· * ·)
              (binarize s.threshold (y_pred.getD i ⟨NpDtype.float32, []⟩)).values
              (y_true.getD i ⟨NpDtype.float32, []⟩).values).sum + s.smooth) /
          ((binarize s.threshold (y_pred.getD i ⟨NpDtype.float32, []⟩)).values.sum +
            (y_true.getD i ⟨NpDtype.float32, []⟩).values.sum + s.smooth)) ∧
    (∀ (s : DiceState) (m : NpFloatArray),
      0 < s.smooth → 0 ≤ s.threshold → s.threshold < 1 →
      (∀ x ∈ m.values, x = 0 ∨ x = 1) →
      (on_batch_end s [m] [m]).2 = [1]) := by
  refine ⟨?_, ?_, ?_, ?_⟩
  · intro th a
    refine ⟨rfl, ?_⟩
    intro j hj
    exact list_getD_map (fun p => if th < p then (1 : ℚ) else 0) 0 0 a.values j hj
  · intro name th ca
    rfl
  · intro s y_true y_pred i hit hip
    show (dice_score (y_pred.map (binarize s.threshold)) y_true s.smooth).getD i 0 = _
    rw [dice_score,
      list_getD_zipWith _ (⟨NpDtype.float32, []⟩ : NpFloatArray)
        (⟨NpDtype.float32, []⟩ : NpFloatArray) 0 _ _ i (by simpa using hip) hit,
      list_getD_map (binarize s.threshold) _ (⟨NpDtype.float32, []⟩ : NpFloatArray)
        _ i hip]
  · intro s m hsm ht0 ht1 hbin
    show dice_score ([m].map (binarize s.threshold)) [m] s.smooth = [1]
    have hbm : binarize s.threshold m = m := by
      show (⟨m.dtype, m.values.map _⟩ : NpFloatArray) = m
      rw [list_binary_map_binarize s.threshold ht0 ht1 m.values hbin]
    rw [List.map_cons, List.map_nil, hbm]
    show [(2 * (List.zipWith (· * ·) m.values m.values).sum + s.smooth) /
      (m.values.sum + m.values.sum + s.smooth)] = [1]
    rw [list_binary_sq_sum m.values hbin]
    have hsum : 0 ≤ m.values.sum :=
      List.sum_nonneg (fun x hx => by rcases hbin x hx with h | h <;> simp [h])
    have hden : m.values.sum + m.values.sum + s.smooth ≠ 0 := by positivity
    rw [show 2 * m.values.sum + s.smooth = m.values.sum + m.values.sum + s.smooth
        by ring,
      div_self hden]

/-- C7 witness: a concrete `Dice` state (output "Dice", threshold 1/2,
`smooth = 1e-8`) on identical binary 1x3 masks yields the score 1. -/
theorem dice_batch_end_formula_witness :
    (on_batch_end (dice_init "Dice" (1/2) false)
      [⟨NpDtype.float32, [1, 0, 1]⟩] [⟨NpDtype.float32, [1, 0, 1]⟩]).2 = [1] :=
  dice_batch_end_formula.2.2.2 (dice_init "Dice" (1/2) false)
    ⟨NpDtype.float32, [1, 0, 1]⟩
    (by norm_num [dice_init]) (by norm_num [dice_init]) (by norm_num [dice_init])
    (by intro x hx; simp at hx; rcases hx with h | h | h <;> simp [h])

end FastEstimator
